import Mathlib

/-!
Verification development for rtk::TotalVariationDenoisingBPDQImageFilter
(rtkTotalVariationDenoisingBPDQImageFilter.h).

The repository ships only the interface header of the filter.  The bodies of
`GenerateData` and of the three sub-filters it composes
(rtkForwardDifferenceGradientImageFilter, rtkBackwardDifferenceDivergenceImageFilter,
rtkMagnitudeThresholdImageFilter) live in implementation files that are not part of
the sources, so those operators are modelled from the specification, faithful to its
words; the pixel type (C++ double) is modelled by the real numbers.  The setter and
getter macros of the header itself are modelled directly from the header.
-/

noncomputable section

/-- A multi-index into an N-dimensional array: one natural-number coordinate per
dimension.  Arrays are modelled as total functions on multi-indices; only the values
at in-bounds indices are ever read by the operators below. -/
abbrev Index (N : ℕ) := Fin N → ℕ

/-- A scalar N-dimensional array of real samples (ITK image with double pixels). -/
abbrev Arr (N : ℕ) := Index N → ℝ

/-- A gradient field: one scalar component per dimension at every grid index
(the component axis of the covariant-vector image).  Components of dimensions that
are not processed are identically zero for every field produced by the operators. -/
abbrev GradField (N : ℕ) := Fin N → Index N → ℝ

/-- The finite set of in-bounds multi-indices of an array of extent `sz`. -/
def Box {N : ℕ} (sz : Fin N → ℕ) : Finset (Index N) :=
  Fintype.piFinset fun d => Finset.range (sz d)

theorem mem_Box {N : ℕ} {sz : Fin N → ℕ} {i : Index N} :
    i ∈ Box sz ↔ ∀ d, i d < sz d := by
  simp [Box, Fintype.mem_piFinset]

/-- Modelled from the spec: rtkForwardDifferenceGradientImageFilter (its
implementation file is not among the repository sources).  For each active
dimension `d` and grid index `i`, component `d` at `i` is
`a[i + e_d] - a[i]` when `i + e_d` is in bounds along `d`, else `0`
(zero padding at the trailing boundary); inactive dimensions contribute a zero
component. -/
def forwardDifferenceGradient {N : ℕ} (sz : Fin N → ℕ) (m : Fin N → Bool)
    (a : Arr N) (d : Fin N) (i : Index N) : ℝ :=
  if m d = true ∧ i d + 1 < sz d then a (Function.update i d (i d + 1)) - a i else 0

/-- Modelled from the spec: rtkBackwardDifferenceDivergenceImageFilter (its
implementation file is not among the repository sources).  At grid index `i` the
output is the sum over active dimensions `d` of `y[i,d] - y[i - e_d, d]`, an
out-of-bounds read along `d` being treated as `0`. -/
def backwardDifferenceDivergence {N : ℕ} (m : Fin N → Bool)
    (y : GradField N) (i : Index N) : ℝ :=
  ∑ d : Fin N,
    if m d = true then
      y d i - (if 0 < i d then y d (Function.update i d (i d - 1)) else 0)
    else 0

/-- Euclidean magnitude of the per-pixel vector of a gradient field at one grid
index: the square root of the sum of the squared components along the component
axis. -/
def fieldMagnitude {N : ℕ} (y : GradField N) (i : Index N) : ℝ :=
  Real.sqrt (∑ d : Fin N, y d i ^ 2)

/-- Modelled from the spec: rtkMagnitudeThresholdImageFilter (its implementation
file is not among the repository sources).  Each per-pixel vector is rescaled by
`min 1 (t / max magnitude ε)`, with `ε` a small positive floor preventing a
division by zero at magnitude exactly zero. -/
def magnitudeThreshold {N : ℕ} (t ε : ℝ) (y : GradField N) : GradField N :=
  fun d i => min 1 (t / max (fieldMagnitude y i) ε) * y d i

/-- Number of dimensions marked true in the dimension mask
(`m_DimensionsProcessed`). -/
def numberOfDimensionsProcessed {N : ℕ} (m : Fin N → Bool) : ℕ :=
  (Finset.univ.filter fun d : Fin N => m d = true).card

/-- Modelled from the spec: the step-size constant `m_beta`, computed once from the
count of active dimensions (`beta = 1 / (4 * numberOfActiveDimensions)`); the value
is assigned in the missing implementation file. -/
def bpdqBeta {N : ℕ} (m : Fin N → Bool) : ℝ :=
  1 / (4 * (numberOfDimensionsProcessed m : ℝ))

/-- Modelled from the spec: the projection-radius constant `m_gamma`, computed once
from the regularization weight (`gamma = lambda`); the value is assigned in the
missing implementation file. -/
def bpdqGamma (lambda : ℝ) : ℝ := lambda

/-- Modelled from the spec: one iteration of the BPDQ loop of `GenerateData`
(implemented in the missing .txx file; the header's pipeline graph wires
divergence, subtraction, scaling, gradient and magnitude threshold in this order):
`dual ↦ Project_{γ}( dual + β · Gradient(input − Divergence(dual)) )`. -/
def bpdqStep {N : ℕ} (sz : Fin N → ℕ) (m : Fin N → Bool) (input : Arr N)
    (β γ ε : ℝ) (dual : GradField N) : GradField N :=
  magnitudeThreshold γ ε fun d i =>
    dual d i + β * forwardDifferenceGradient sz m
      (fun j => input j - backwardDifferenceDivergence m dual j) d i

/-- The dual variable after `n` BPDQ iterations, starting from the all-zero
gradient field. -/
def bpdqDual {N : ℕ} (sz : Fin N → ℕ) (m : Fin N → Bool) (input : Arr N)
    (β γ ε : ℝ) : ℕ → GradField N
  | 0 => fun _ _ => 0
  | n + 1 => bpdqStep sz m input β γ ε (bpdqDual sz m input β γ ε n)

/-- Modelled from the spec: the full denoising run of
`TotalVariationDenoisingBPDQImageFilter::GenerateData` (missing .txx file): run the
dual iteration `n` times with the derived constants and return
`input − Divergence(dual_n)`. -/
def totalVariationDenoisingBPDQ {N : ℕ} (sz : Fin N → ℕ) (m : Fin N → Bool)
    (lambda ε : ℝ) (n : ℕ) (input : Arr N) : Arr N :=
  fun i => input i -
    backwardDifferenceDivergence m
      (bpdqDual sz m input (bpdqBeta m) (bpdqGamma lambda) ε n) i

/-- The error taxonomy of the spec relevant to the claims. -/
inductive RTKError
  | InvalidArgument
deriving DecidableEq

/-- Modelled from the spec: the denoising run with the argument validation the spec
prescribes (the validation would live in the missing implementation file): a
negative iteration count, a non-positive `lambda`, or an empty dimension mask fail
with `InvalidArgument` before any iteration starts and produce no output. -/
def totalVariationDenoisingBPDQChecked {N : ℕ} (sz : Fin N → ℕ) (m : Fin N → Bool)
    (lambda ε : ℝ) (nIter : ℤ) (input : Arr N) : Except RTKError (Arr N) :=
  if nIter < 0 ∨ lambda ≤ 0 ∨ numberOfDimensionsProcessed m = 0 then
    Except.error RTKError.InvalidArgument
  else
    Except.ok (totalVariationDenoisingBPDQ sz m lambda ε nIter.toNat input)

/-- Anisotropic total variation restricted to the processed dimensions: the sum of
the absolute forward differences over the grid (the "sum of absolute adjacent
differences" of the spec). -/
def totalVariation {N : ℕ} (sz : Fin N → ℕ) (m : Fin N → Bool) (f : Arr N) : ℝ :=
  ∑ i ∈ Box sz, ∑ d : Fin N, |forwardDifferenceGradient sz m f d i|

/-- The configuration state held by the filter object in the header:
`m_Lambda` (double) and `m_NumberOfIterations` (int). -/
structure TVDenoisingFilterState where
  m_Lambda : ℝ
  m_NumberOfIterations : ℤ

/-- `itkSetMacro(NumberOfIterations, int)` from the header: store the argument,
unconditionally and without validation. -/
def SetNumberOfIterations (s : TVDenoisingFilterState) (v : ℤ) :
    TVDenoisingFilterState :=
  { s with m_NumberOfIterations := v }

/-- `itkGetMacro(NumberOfIterations, int)` from the header: return the stored
member. -/
def GetNumberOfIterations (s : TVDenoisingFilterState) : ℤ :=
  s.m_NumberOfIterations

/-- `itkSetMacro(Lambda, double)` from the header: store the argument,
unconditionally and without validation. -/
def SetLambda (s : TVDenoisingFilterState) (v : ℝ) : TVDenoisingFilterState :=
  { s with m_Lambda := v }

/-- `itkGetMacro(Lambda, double)` from the header: return the stored member. -/
def GetLambda (s : TVDenoisingFilterState) : ℝ :=
  s.m_Lambda

/-- The standard inner product of two arrays over the in-bounds grid. -/
def innerArr {N : ℕ} (sz : Fin N → ℕ) (x z : Arr N) : ℝ :=
  ∑ i ∈ Box sz, x i * z i

/-- The standard inner product of two gradient fields over the in-bounds grid and
all components. -/
def innerField {N : ℕ} (sz : Fin N → ℕ) (y w : GradField N) : ℝ :=
  ∑ d : Fin N, ∑ i ∈ Box sz, y d i * w d i

/-! ### Helpers for evaluating the operators on one-dimensional grids -/

theorem index1_eta (i : Index 1) : i = fun _ => i 0 := by
  funext d
  rw [Subsingleton.elim d 0]

theorem update1 (i : Index 1) (k : ℕ) : Function.update i 0 k = fun _ => k := by
  funext d
  rw [Subsingleton.elim d 0, Function.update_same]

theorem Box1_sum (n : ℕ) (f : Index 1 → ℝ) :
    ∑ i ∈ Box (fun _ => n), f i = ∑ k ∈ Finset.range n, f (fun _ => k) := by
  refine Finset.sum_nbij' (fun i => i 0) (fun k => fun _ => k) ?_ ?_ ?_ ?_ ?_
  · intro a ha
    rw [mem_Box] at ha
    exact Finset.mem_range.2 (ha 0)
  · intro a ha
    rw [mem_Box]
    intro d
    exact Finset.mem_range.1 ha
  · intro a ha
    exact (index1_eta a).symm
  · intro a ha
    rfl
  · intro a ha
    conv_lhs => rw [index1_eta a]

theorem grad1 (n : ℕ) (a : Arr 1) (k : ℕ) :
    forwardDifferenceGradient (fun _ => n) (fun _ => true) a 0 (fun _ => k)
      = if k + 1 < n then a (fun _ => k + 1) - a (fun _ => k) else 0 := by
  unfold forwardDifferenceGradient
  rw [update1]
  simp

theorem div1 (y : GradField 1) (k : ℕ) :
    backwardDifferenceDivergence (fun _ => true) y (fun _ => k)
      = y 0 (fun _ => k) - (if 0 < k then y 0 (fun _ => k - 1) else 0) := by
  unfold backwardDifferenceDivergence
  rw [Fin.sum_univ_one, update1]
  simp

theorem mag1 (y : GradField 1) (i : Index 1) :
    fieldMagnitude y i = |y 0 i| := by
  unfold fieldMagnitude
  rw [Fin.sum_univ_one, Real.sqrt_sq_eq_abs]

/-- A concrete one-dimensional array `[a, b, c]` (extent 3). -/
def arr3 (a b c : ℝ) : Arr 1 :=
  fun i => if i 0 = 0 then a else if i 0 = 1 then b else c

/-- A concrete one-dimensional gradient field `[p, q, 0]` (extent 3). -/
def field3 (p q : ℝ) : GradField 1 :=
  fun _ i => if i 0 = 0 then p else if i 0 = 1 then q else 0

/-! ### Claim theorems -/

/-- Summation by parts along one active dimension: the building block of the
gradient/divergence adjointness.  The hypothesis `htz` is the GradientField
boundary convention: the component along `d` vanishes at the last in-bounds index
along `d`. -/
theorem adjoint_dim {N : ℕ} (sz : Fin N → ℕ) (m : Fin N → Bool) (a : Arr N)
    (y : GradField N) (d : Fin N) (hd : m d = true)
    (htz : ∀ i ∈ Box sz, i d + 1 = sz d → y d i = 0) :
    ∑ i ∈ Box sz, forwardDifferenceGradient sz m a d i * y d i
      = - ∑ i ∈ Box sz,
          a i * (y d i -
            if 0 < i d then y d (Function.update i d (i d - 1)) else 0) := by
  have hdu : ∀ i : Index N,
      Function.update (Function.update i d (i d + 1)) d
        (Function.update i d (i d + 1) d - 1) = i := by
    intro i
    funext e
    by_cases he : e = d
    · subst he
      simp [Function.update_same]
    · simp [Function.update_noteq he]
  have hud : ∀ j : Index N, 0 < j d →
      Function.update (Function.update j d (j d - 1)) d
        (Function.update j d (j d - 1) d + 1) = j := by
    intro j hj
    funext e
    by_cases he : e = d
    · subst he
      simp [Function.update_same]
      omega
    · simp [Function.update_noteq he]
  have h0 : ∀ i ∈ Box sz, forwardDifferenceGradient sz m a d i * y d i
      = if i d + 1 < sz d then
          (a (Function.update i d (i d + 1)) - a i) * y d i
        else 0 := by
    intro i _
    unfold forwardDifferenceGradient
    rw [hd]
    by_cases h : i d + 1 < sz d <;> simp [h]
  rw [Finset.sum_congr rfl h0, ← Finset.sum_filter]
  have h1 : ∀ i ∈ (Box sz).filter (fun i => i d + 1 < sz d),
      (a (Function.update i d (i d + 1)) - a i) * y d i
        = a (Function.update i d (i d + 1)) * y d i - a i * y d i := by
    intro i _
    ring
  rw [Finset.sum_congr rfl h1, Finset.sum_sub_distrib]
  have hre : ∑ i ∈ (Box sz).filter (fun i => i d + 1 < sz d),
      a (Function.update i d (i d + 1)) * y d i
      = ∑ j ∈ (Box sz).filter (fun j => 0 < j d),
          a j * y d (Function.update j d (j d - 1)) := by
    refine Finset.sum_nbij' (fun i => Function.update i d (i d + 1))
      (fun j => Function.update j d (j d - 1)) ?_ ?_ ?_ ?_ ?_
    · intro i hi
      rw [Finset.mem_filter, mem_Box] at hi ⊢
      obtain ⟨hbox, hlt⟩ := hi
      dsimp only
      refine ⟨fun e => ?_, ?_⟩
      · by_cases he : e = d
        · subst he
          rw [Function.update_same]
          exact hlt
        · rw [Function.update_noteq he]
          exact hbox e
      · rw [Function.update_same]
        omega
    · intro j hj
      rw [Finset.mem_filter, mem_Box] at hj ⊢
      obtain ⟨hbox, hpos⟩ := hj
      dsimp only
      refine ⟨fun e => ?_, ?_⟩
      · by_cases he : e = d
        · subst he
          rw [Function.update_same]
          have := hbox e
          omega
        · rw [Function.update_noteq he]
          exact hbox e
      · rw [Function.update_same]
        have := hbox d
        omega
    · intro i _
      exact hdu i
    · intro j hj
      rw [Finset.mem_filter] at hj
      exact hud j hj.2
    · intro i _
      rw [hdu i]
  rw [hre]
  have hS2 : ∑ i ∈ (Box sz).filter (fun i => i d + 1 < sz d), a i * y d i
      = ∑ i ∈ Box sz, a i * y d i := by
    rw [Finset.sum_filter]
    refine Finset.sum_congr rfl ?_
    intro i hi
    by_cases h : i d + 1 < sz d
    · simp [h]
    · have hedge : i d + 1 = sz d := by
        have := mem_Box.1 hi d
        omega
      rw [if_neg h, htz i hi hedge, mul_zero]
  rw [hS2]
  have hR : ∑ i ∈ Box sz,
      a i * (y d i - if 0 < i d then y d (Function.update i d (i d - 1)) else 0)
      = ∑ i ∈ Box sz, a i * y d i
        - ∑ i ∈ (Box sz).filter (fun i => 0 < i d),
            a i * y d (Function.update i d (i d - 1)) := by
    have hpt : ∀ i ∈ Box sz,
        a i * (y d i - if 0 < i d then y d (Function.update i d (i d - 1)) else 0)
          = a i * y d i
            - (if 0 < i d then a i * y d (Function.update i d (i d - 1)) else 0) := by
      intro i _
      by_cases h : 0 < i d
      · simp only [if_pos h]
        ring
      · simp only [if_neg h]
        ring
    rw [Finset.sum_congr rfl hpt, Finset.sum_sub_distrib, ← Finset.sum_filter]
  rw [hR]
  ring

/-- C2 (amended): the inner-product identity `⟨Grad x, y⟩ = ⟨x, -Div y⟩` holds
exactly for every array `x` and every gradient field `y` of matching shape and
active dimensions whose active components vanish at the last in-bounds index along
their own dimension — the boundary convention satisfied by every output of the
gradient operator. -/
theorem C2_adjointness_amended {N : ℕ} (sz : Fin N → ℕ) (m : Fin N → Bool)
    (x : Arr N) (y : GradField N)
    (htz : ∀ d, m d = true → ∀ i ∈ Box sz, i d + 1 = sz d → y d i = 0) :
    innerField sz (forwardDifferenceGradient sz m x) y
      = innerArr sz x (fun i => - backwardDifferenceDivergence m y i) := by
  unfold innerField innerArr backwardDifferenceDivergence
  have key : ∀ d : Fin N,
      ∑ i ∈ Box sz, forwardDifferenceGradient sz m x d i * y d i
        = - ∑ i ∈ Box sz, x i *
            (if m d = true then
              y d i - (if 0 < i d then y d (Function.update i d (i d - 1)) else 0)
            else 0) := by
    intro d
    by_cases hd : m d = true
    · rw [adjoint_dim sz m x y d hd (htz d hd)]
      simp only [hd, if_true]
    · have hfalse : m d = false := by
        simpa using hd
      simp [forwardDifferenceGradient, hfalse]
  rw [Finset.sum_congr rfl fun d _ => key d]
  have hA : ∀ i ∈ Box sz,
      x i * ((fun i => -∑ d : Fin N,
          if m d = true then
            y d i - (if 0 < i d then y d (Function.update i d (i d - 1)) else 0)
          else 0) i)
        = -∑ d : Fin N, x i *
            (if m d = true then
              y d i - (if 0 < i d then y d (Function.update i d (i d - 1)) else 0)
            else 0) := by
    intro i _
    dsimp only
    rw [mul_neg, Finset.mul_sum]
  rw [Finset.sum_congr rfl hA, Finset.sum_neg_distrib, Finset.sum_neg_distrib,
    Finset.sum_comm]

/-- C2 counterexample: on the one-pixel 1-D grid with `x = [1]` and the gradient
field `y = [1]` (whose trailing component is nonzero), `⟨Grad x, y⟩ = 0` while
`⟨x, -Div y⟩ = -1`, so the adjointness identity fails for an arbitrary gradient
field. -/
theorem C2_adjointness_counterexample :
    ¬ (innerField (fun _ : Fin 1 => 1)
          (forwardDifferenceGradient (fun _ => 1) (fun _ => true) (fun _ => 1))
          (fun _ _ => 1)
        = innerArr (fun _ : Fin 1 => 1) (fun _ => 1)
            (fun i => - backwardDifferenceDivergence (fun _ => true)
                (fun _ _ => 1) i)) := by
  have h1 : innerField (fun _ : Fin 1 => 1)
      (forwardDifferenceGradient (fun _ => 1) (fun _ => true) (fun _ => 1))
      (fun _ _ => 1) = 0 := by
    unfold innerField
    rw [Fin.sum_univ_one, Box1_sum]
    rw [Finset.sum_range_one, grad1]
    norm_num
  have h2 : innerArr (fun _ : Fin 1 => 1) (fun _ => 1)
      (fun i => - backwardDifferenceDivergence (fun _ => true) (fun _ _ => 1) i)
      = -1 := by
    unfold innerArr
    rw [Box1_sum, Finset.sum_range_one]
    show (1 : ℝ) *
        -backwardDifferenceDivergence (fun _ => true) (fun _ _ => 1) (fun _ => 0)
      = -1
    rw [div1]
    norm_num
  rw [h1, h2]
  norm_num

/-- Witness for the amended C2 on a concrete 3-pixel grid and a concrete gradient
field with vanishing trailing component. -/
theorem C2_adjointness_amended_witness :
    innerField (fun _ : Fin 1 => 3)
        (forwardDifferenceGradient (fun _ => 3) (fun _ => true) (arr3 1 2 4))
        (field3 5 7)
      = innerArr (fun _ : Fin 1 => 3) (arr3 1 2 4)
          (fun i => - backwardDifferenceDivergence (fun _ => true) (field3 5 7) i) :=
  C2_adjointness_amended (fun _ => 3) (fun _ => true) (arr3 1 2 4) (field3 5 7)
    (by
      intro d _ i _ h3
      have hd0 : d = 0 := Subsingleton.elim d 0
      subst hd0
      have h3' : i 0 + 1 = 3 := h3
      have h2 : i 0 = 2 := by omega
      simp [field3, h2])

/-- C3: for every input array, dimension mask, dimension `d`, and grid index `i`,
the gradient component `d` at `i` equals `array[i + e_d] - array[i]` when the
dimension is active and `i + e_d` is in bounds along `d`, and `0` otherwise; in
particular for the 1-D array `[a, b, c]` with mask `[true]` the gradient is
`[b - a, c - b, 0]`. -/
theorem C3_gradient_formula :
    (∀ (N : ℕ) (sz : Fin N → ℕ) (m : Fin N → Bool) (a : Arr N) (d : Fin N)
        (i : Index N),
        forwardDifferenceGradient sz m a d i =
          if m d = true ∧ i d + 1 < sz d then
            a (Function.update i d (i d + 1)) - a i
          else 0)
    ∧ ∀ a b c : ℝ,
        forwardDifferenceGradient (fun _ => 3) (fun _ => true) (arr3 a b c) 0
            (fun _ => 0) = b - a
        ∧ forwardDifferenceGradient (fun _ => 3) (fun _ => true) (arr3 a b c) 0
            (fun _ => 1) = c - b
        ∧ forwardDifferenceGradient (fun _ => 3) (fun _ => true) (arr3 a b c) 0
            (fun _ => 2) = 0 := by
  constructor
  · intro N sz m a d i
    rfl
  · intro a b c
    refine ⟨?_, ?_, ?_⟩ <;> rw [grad1] <;> norm_num [arr3]

/-- C4: for every gradient field and grid index `i`, the divergence at `i` is the
sum over active dimensions `d` of `field[i, d] - field[i - e_d, d]` with
out-of-bounds reads treated as `0`; in particular for the 1-D field `[p, q, 0]` the
divergence is `[p, q - p, -q]`. -/
theorem C4_divergence_formula :
    (∀ (N : ℕ) (m : Fin N → Bool) (y : GradField N) (i : Index N),
        backwardDifferenceDivergence m y i =
          ∑ d : Fin N,
            if m d = true then
              y d i - (if 0 < i d then y d (Function.update i d (i d - 1)) else 0)
            else 0)
    ∧ ∀ p q : ℝ,
        backwardDifferenceDivergence (fun _ => true) (field3 p q) (fun _ => 0) = p
        ∧ backwardDifferenceDivergence (fun _ => true) (field3 p q) (fun _ => 1)
            = q - p
        ∧ backwardDifferenceDivergence (fun _ => true) (field3 p q) (fun _ => 2)
            = -q := by
  constructor
  · intro N m y i
    rfl
  · intro p q
    refine ⟨?_, ?_, ?_⟩ <;> rw [div1] <;> norm_num [field3]

/-- C6: with `numberOfIterations = 0` the denoising run is a legal no-op: under a
valid configuration the checked run succeeds and returns the input unchanged, and
the unchecked pipeline output equals the input element for element. -/
theorem C6_zero_iterations_noop (N : ℕ) (sz : Fin N → ℕ) (m : Fin N → Bool)
    (lambda ε : ℝ) (input : Arr N)
    (hlam : 0 < lambda) (hact : numberOfDimensionsProcessed m ≠ 0) :
    totalVariationDenoisingBPDQChecked sz m lambda ε 0 input = Except.ok input
    ∧ totalVariationDenoisingBPDQ sz m lambda ε 0 input = input := by
  have hplain : totalVariationDenoisingBPDQ sz m lambda ε 0 input = input := by
    funext i
    unfold totalVariationDenoisingBPDQ bpdqDual backwardDifferenceDivergence
    simp
  refine ⟨?_, hplain⟩
  unfold totalVariationDenoisingBPDQChecked
  rw [if_neg]
  · rw [show (0 : ℤ).toNat = 0 from rfl, hplain]
  · push_neg
    exact ⟨by norm_num, by linarith, hact⟩

/-- Witness for C6 at a concrete configuration. -/
theorem C6_zero_iterations_noop_witness :
    totalVariationDenoisingBPDQChecked (fun _ : Fin 1 => 2) (fun _ => true) 1 1 0
        (fun _ => 5) = Except.ok (fun _ => 5)
    ∧ totalVariationDenoisingBPDQ (fun _ : Fin 1 => 2) (fun _ => true) 1 1 0
        (fun _ => 5) = (fun _ => 5) :=
  C6_zero_iterations_noop 1 (fun _ => 2) (fun _ => true) 1 1 (fun _ => 5)
    (by norm_num) (by decide)

/-- C5 (amended): the magnitude projection rescales each per-pixel vector by
`min 1 (t / max magnitude ε)`; for every threshold `t > 0` the output magnitude is
at most `t` and a zero vector stays zero, and provided the floor `ε` does not
exceed `t`, a vector whose magnitude is already at most `t` is returned
unchanged. -/
theorem C5_projection_amended {N : ℕ} (t ε : ℝ) (y : GradField N) (i : Index N)
    (ht : 0 < t) (hε : 0 < ε) :
    (∀ d, magnitudeThreshold t ε y d i
        = min 1 (t / max (fieldMagnitude y i) ε) * y d i)
    ∧ fieldMagnitude (magnitudeThreshold t ε y) i ≤ t
    ∧ (ε ≤ t → fieldMagnitude y i ≤ t →
        ∀ d, magnitudeThreshold t ε y d i = y d i)
    ∧ (fieldMagnitude y i = 0 → ∀ d, magnitudeThreshold t ε y d i = 0) := by
  have hM : 0 < max (fieldMagnitude y i) ε := lt_of_lt_of_le hε (le_max_right _ _)
  have hs0 : 0 ≤ min 1 (t / max (fieldMagnitude y i) ε) :=
    le_min zero_le_one (div_nonneg ht.le hM.le)
  have hsum : ∑ d : Fin N, (min 1 (t / max (fieldMagnitude y i) ε) * y d i) ^ 2
      = min 1 (t / max (fieldMagnitude y i) ε) ^ 2 * ∑ d : Fin N, y d i ^ 2 := by
    rw [Finset.mul_sum]
    exact Finset.sum_congr rfl fun d _ => by ring
  have hout : fieldMagnitude (magnitudeThreshold t ε y) i
      = min 1 (t / max (fieldMagnitude y i) ε) * fieldMagnitude y i := by
    calc fieldMagnitude (magnitudeThreshold t ε y) i
        = Real.sqrt (∑ d : Fin N,
            (min 1 (t / max (fieldMagnitude y i) ε) * y d i) ^ 2) := rfl
      _ = Real.sqrt (min 1 (t / max (fieldMagnitude y i) ε) ^ 2
            * ∑ d : Fin N, y d i ^ 2) := by rw [hsum]
      _ = Real.sqrt (min 1 (t / max (fieldMagnitude y i) ε) ^ 2)
            * Real.sqrt (∑ d : Fin N, y d i ^ 2) := Real.sqrt_mul (sq_nonneg _) _
      _ = min 1 (t / max (fieldMagnitude y i) ε) * fieldMagnitude y i := by
          rw [Real.sqrt_sq_eq_abs, abs_of_nonneg hs0]
          rfl
  refine ⟨fun d => rfl, ?_, ?_, ?_⟩
  · rw [hout]
    calc min 1 (t / max (fieldMagnitude y i) ε) * fieldMagnitude y i
        ≤ min 1 (t / max (fieldMagnitude y i) ε)
            * max (fieldMagnitude y i) ε :=
          mul_le_mul_of_nonneg_left (le_max_left _ _) hs0
      _ ≤ (t / max (fieldMagnitude y i) ε) * max (fieldMagnitude y i) ε :=
          mul_le_mul_of_nonneg_right (min_le_right _ _) hM.le
      _ = t := div_mul_cancel₀ t hM.ne'
  · intro hεt hmt d
    have hMt : max (fieldMagnitude y i) ε ≤ t := max_le hmt hεt
    have h1 : (1 : ℝ) ≤ t / max (fieldMagnitude y i) ε := (one_le_div hM).2 hMt
    show min 1 (t / max (fieldMagnitude y i) ε) * y d i = y d i
    rw [min_eq_left h1, one_mul]
  · intro h0 d
    have h0' : Real.sqrt (∑ d : Fin N, y d i ^ 2) = 0 := h0
    have hle : (∑ d : Fin N, y d i ^ 2) ≤ 0 := Real.sqrt_eq_zero'.1 h0'
    have hge : (0 : ℝ) ≤ ∑ d : Fin N, y d i ^ 2 :=
      Finset.sum_nonneg fun d _ => sq_nonneg _
    have hS : ∑ d : Fin N, y d i ^ 2 = 0 := le_antisymm hle hge
    have hterm : y d i ^ 2 = 0 :=
      (Finset.sum_eq_zero_iff_of_nonneg fun d _ => sq_nonneg (y d i)).1 hS d
        (Finset.mem_univ d)
    have hyd : y d i = 0 := by
      have := sq_eq_zero_iff.1 hterm
      exact this
    show min 1 (t / max (fieldMagnitude y i) ε) * y d i = 0
    rw [hyd, mul_zero]

/-- C5 counterexample: with the floor `ε = 10⁻⁸` of the scaling formula and the
threshold `t = 10⁻⁹ > 0`, the constant one-component field of magnitude
`(4·10⁹)⁻¹ ≤ t` is NOT returned unchanged — it is rescaled by `t/ε = 1/10` — so
"vectors whose magnitude is already ≤ t are returned unchanged" fails as stated
for thresholds below the floor. -/
theorem C5_projection_counterexample :
    (0 : ℝ) < 1 / 1000000000
    ∧ fieldMagnitude (fun _ _ => 1 / 4000000000 : GradField 1) (fun _ => 0)
        ≤ 1 / 1000000000
    ∧ magnitudeThreshold (1 / 1000000000) (1 / 100000000)
        (fun _ _ => 1 / 4000000000 : GradField 1) 0 (fun _ => 0)
      ≠ (1 / 4000000000 : ℝ) := by
  have hm : fieldMagnitude (fun _ _ => 1 / 4000000000 : GradField 1) (fun _ => 0)
      = 1 / 4000000000 := by
    rw [mag1]
    norm_num
  refine ⟨by norm_num, by rw [hm]; norm_num, ?_⟩
  show min 1 ((1 / 1000000000) /
        max (fieldMagnitude (fun _ _ => 1 / 4000000000 : GradField 1) (fun _ => 0))
          (1 / 100000000)) * (1 / 4000000000)
      ≠ (1 / 4000000000 : ℝ)
  rw [hm]
  rw [show max (1 / 4000000000 : ℝ) (1 / 100000000) = 1 / 100000000 from
    max_eq_right (by norm_num)]
  rw [show min (1 : ℝ) ((1 / 1000000000) / (1 / 100000000)) = 1 / 10 from by
    rw [min_eq_right (by norm_num)]
    norm_num]
  norm_num

/-- Witness for the amended C5 at a concrete threshold, floor and field. -/
theorem C5_projection_amended_witness :
    (∀ d, magnitudeThreshold 1 (1 / 2) (fun _ _ => 0 : GradField 1) d (fun _ => 0)
        = min 1 (1 / max (fieldMagnitude (fun _ _ => 0 : GradField 1) (fun _ => 0))
              (1 / 2))
            * (fun _ _ => 0 : GradField 1) d (fun _ => 0))
    ∧ fieldMagnitude (magnitudeThreshold 1 (1 / 2) (fun _ _ => 0 : GradField 1))
        (fun _ => 0) ≤ 1
    ∧ ((1 : ℝ) / 2 ≤ 1 →
        fieldMagnitude (fun _ _ => 0 : GradField 1) (fun _ => 0) ≤ 1 →
        ∀ d, magnitudeThreshold 1 (1 / 2) (fun _ _ => 0 : GradField 1) d
            (fun _ => 0)
          = (fun _ _ => 0 : GradField 1) d (fun _ => 0))
    ∧ (fieldMagnitude (fun _ _ => 0 : GradField 1) (fun _ => 0) = 0 →
        ∀ d, magnitudeThreshold 1 (1 / 2) (fun _ _ => 0 : GradField 1) d
            (fun _ => 0) = 0) :=
  C5_projection_amended 1 (1 / 2) (fun _ _ => 0) (fun _ => 0) (by norm_num)
    (by norm_num)

/-- C1: the denoiser performs exactly `n` projected-gradient iterations on the
dual variable: `dual_0` is the all-zero gradient field,
`dual_{k+1} = Project_γ(dual_k + β · Gradient(input − Divergence(dual_k)))`
(the projection being the magnitude threshold at radius `γ`), and the returned
output equals `input − Divergence(dual_n)`. -/
theorem C1_bpdq_iteration_scheme {N : ℕ} (sz : Fin N → ℕ) (m : Fin N → Bool)
    (lambda ε : ℝ) (n : ℕ) (input : Arr N) :
    (bpdqDual sz m input (bpdqBeta m) (bpdqGamma lambda) ε 0 = fun _ _ => 0)
    ∧ (∀ k, bpdqDual sz m input (bpdqBeta m) (bpdqGamma lambda) ε (k + 1)
        = magnitudeThreshold (bpdqGamma lambda) ε fun d i =>
            bpdqDual sz m input (bpdqBeta m) (bpdqGamma lambda) ε k d i
              + bpdqBeta m * forwardDifferenceGradient sz m
                  (fun j => input j - backwardDifferenceDivergence m
                      (bpdqDual sz m input (bpdqBeta m) (bpdqGamma lambda) ε k) j)
                  d i)
    ∧ totalVariationDenoisingBPDQ sz m lambda ε n input
        = fun i => input i - backwardDifferenceDivergence m
            (bpdqDual sz m input (bpdqBeta m) (bpdqGamma lambda) ε n) i :=
  ⟨rfl, fun _ => rfl, rfl⟩

/-- C7: the step-size constants are derived once from the configuration —
`beta = 1 / (4 * numberOfActiveDimensions)` and `gamma = lambda` — and every
iteration of a run applies the very same step function built from those two fixed
values. -/
theorem C7_constants {N : ℕ} (sz : Fin N → ℕ) (m : Fin N → Bool)
    (lambda ε : ℝ) (n : ℕ) (input : Arr N) :
    bpdqBeta m = 1 / (4 * (numberOfDimensionsProcessed m : ℝ))
    ∧ bpdqGamma lambda = lambda
    ∧ totalVariationDenoisingBPDQ sz m lambda ε n input
        = fun i => input i - backwardDifferenceDivergence m
            ((bpdqStep sz m input (bpdqBeta m) (bpdqGamma lambda) ε)^[n]
              fun _ _ => 0) i := by
  refine ⟨rfl, rfl, ?_⟩
  have hiter : ∀ k, bpdqDual sz m input (bpdqBeta m) (bpdqGamma lambda) ε k
      = (bpdqStep sz m input (bpdqBeta m) (bpdqGamma lambda) ε)^[k]
          fun _ _ => 0 := by
    intro k
    induction k with
    | zero => rfl
    | succ k ih =>
        rw [Function.iterate_succ_apply', ← ih]
        rfl
  unfold totalVariationDenoisingBPDQ
  rw [hiter n]

/-- C8: an invalid configuration — a negative iteration count, a non-positive
`lambda`, or a dimension mask with zero active dimensions — makes the checked run
fail with `InvalidArgument` immediately, before any iteration, and no output is
produced. -/
theorem C8_invalid_arguments {N : ℕ} (sz : Fin N → ℕ) (m : Fin N → Bool)
    (lambda ε : ℝ) (nIter : ℤ) (input : Arr N)
    (hbad : nIter < 0 ∨ lambda ≤ 0 ∨ numberOfDimensionsProcessed m = 0) :
    totalVariationDenoisingBPDQChecked sz m lambda ε nIter input
      = Except.error RTKError.InvalidArgument := by
  unfold totalVariationDenoisingBPDQChecked
  rw [if_pos hbad]

/-- Witness for C8 at a concrete negative iteration count. -/
theorem C8_invalid_arguments_witness :
    totalVariationDenoisingBPDQChecked (fun _ : Fin 1 => 3) (fun _ => true) 1 1
        (-1) (fun _ => 0)
      = Except.error RTKError.InvalidArgument :=
  C8_invalid_arguments (fun _ => 3) (fun _ => true) 1 1 (-1) (fun _ => 0)
    (Or.inl (by norm_num))

/-- Componentwise bound on the magnitude projection: every output component has
absolute value at most the threshold. -/
theorem magnitudeThreshold_abs_le {N : ℕ} (t ε : ℝ) (ht : 0 ≤ t) (hε : 0 < ε)
    (y : GradField N) (d : Fin N) (i : Index N) :
    |magnitudeThreshold t ε y d i| ≤ t := by
  have hM : 0 < max (fieldMagnitude y i) ε := lt_of_lt_of_le hε (le_max_right _ _)
  have hs0 : 0 ≤ min 1 (t / max (fieldMagnitude y i) ε) :=
    le_min zero_le_one (div_nonneg ht hM.le)
  have hyle : |y d i| ≤ max (fieldMagnitude y i) ε := by
    have hsq : y d i ^ 2 ≤ ∑ e : Fin N, y e i ^ 2 :=
      Finset.single_le_sum (fun e _ => sq_nonneg (y e i)) (Finset.mem_univ d)
    have h1 : |y d i| ≤ fieldMagnitude y i := by
      calc |y d i| = Real.sqrt (y d i ^ 2) := (Real.sqrt_sq_eq_abs _).symm
        _ ≤ Real.sqrt (∑ e : Fin N, y e i ^ 2) := Real.sqrt_le_sqrt hsq
        _ = fieldMagnitude y i := rfl
    exact le_trans h1 (le_max_left _ _)
  show |min 1 (t / max (fieldMagnitude y i) ε) * y d i| ≤ t
  rw [abs_mul, abs_of_nonneg hs0]
  calc min 1 (t / max (fieldMagnitude y i) ε) * |y d i|
      ≤ min 1 (t / max (fieldMagnitude y i) ε) * max (fieldMagnitude y i) ε :=
        mul_le_mul_of_nonneg_left hyle hs0
    _ ≤ (t / max (fieldMagnitude y i) ε) * max (fieldMagnitude y i) ε :=
        mul_le_mul_of_nonneg_right (min_le_right _ _) hM.le
    _ = t := div_mul_cancel₀ t hM.ne'

/-- Every component of the dual variable stays within the projection radius. -/
theorem bpdqDual_abs_le {N : ℕ} (sz : Fin N → ℕ) (m : Fin N → Bool)
    (input : Arr N) (β γ ε : ℝ) (hγ : 0 ≤ γ) (hε : 0 < ε) (n : ℕ) (d : Fin N)
    (i : Index N) :
    |bpdqDual sz m input β γ ε n d i| ≤ γ := by
  cases n with
  | zero =>
      show |(0 : ℝ)| ≤ γ
      simpa using hγ
  | succ n => exact magnitudeThreshold_abs_le γ ε hγ hε _ d i

/-- The divergence of a componentwise-bounded field is bounded by twice the bound
times the number of active dimensions. -/
theorem divergence_abs_le {N : ℕ} (m : Fin N → Bool) (y : GradField N) (γ : ℝ)
    (hγ : 0 ≤ γ) (hy : ∀ d i, |y d i| ≤ γ) (i : Index N) :
    |backwardDifferenceDivergence m y i|
      ≤ 2 * γ * (numberOfDimensionsProcessed m : ℝ) := by
  unfold backwardDifferenceDivergence
  have hterm : ∀ d : Fin N,
      |if m d = true then
          y d i - (if 0 < i d then y d (Function.update i d (i d - 1)) else 0)
        else 0|
        ≤ if m d = true then 2 * γ else 0 := by
    intro d
    by_cases hd : m d = true
    · rw [if_pos hd, if_pos hd]
      have hb : |if 0 < i d then y d (Function.update i d (i d - 1)) else 0| ≤ γ := by
        by_cases h : 0 < i d
        · rw [if_pos h]
          exact hy d _
        · rw [if_neg h]
          simpa using hγ
      calc |y d i - (if 0 < i d then y d (Function.update i d (i d - 1)) else 0)|
          ≤ |y d i| + |if 0 < i d then y d (Function.update i d (i d - 1)) else 0| :=
            abs_sub _ _
        _ ≤ γ + γ := add_le_add (hy d i) hb
        _ = 2 * γ := by ring
    · rw [if_neg hd, if_neg hd]
      simp
  calc |∑ d : Fin N,
        if m d = true then
          y d i - (if 0 < i d then y d (Function.update i d (i d - 1)) else 0)
        else 0|
      ≤ ∑ d : Fin N,
          |if m d = true then
            y d i - (if 0 < i d then y d (Function.update i d (i d - 1)) else 0)
          else 0| := Finset.abs_sum_le_sum_abs _ _
    _ ≤ ∑ d : Fin N, (if m d = true then 2 * γ else 0) :=
        Finset.sum_le_sum fun d _ => hterm d
    _ = 2 * γ * (numberOfDimensionsProcessed m : ℝ) := by
        rw [← Finset.sum_filter, Finset.sum_const, nsmul_eq_mul]
        unfold numberOfDimensionsProcessed
        ring

/-- The forward-difference gradient is linear in the array: the gradient of a
pointwise difference is the difference of the gradients. -/
theorem forwardDifferenceGradient_sub {N : ℕ} (sz : Fin N → ℕ) (m : Fin N → Bool)
    (f g : Arr N) (d : Fin N) (i : Index N) :
    forwardDifferenceGradient sz m (fun j => f j - g j) d i
      = forwardDifferenceGradient sz m f d i
        - forwardDifferenceGradient sz m g d i := by
  unfold forwardDifferenceGradient
  by_cases h : m d = true ∧ i d + 1 < sz d
  · rw [if_pos h, if_pos h, if_pos h]
    ring
  · rw [if_neg h, if_neg h, if_neg h]
    ring

/-- Gradient components of a bounded array are bounded by twice the bound. -/
theorem forwardDifferenceGradient_abs_le {N : ℕ} (sz : Fin N → ℕ)
    (m : Fin N → Bool) (g : Arr N) (B : ℝ) (hB : 0 ≤ B) (hg : ∀ j, |g j| ≤ B)
    (d : Fin N) (i : Index N) :
    |forwardDifferenceGradient sz m g d i| ≤ 2 * B := by
  unfold forwardDifferenceGradient
  by_cases h : m d = true ∧ i d + 1 < sz d
  · rw [if_pos h]
    calc |g (Function.update i d (i d + 1)) - g i|
        ≤ |g (Function.update i d (i d + 1))| + |g i| := abs_sub _ _
      _ ≤ B + B := add_le_add (hg _) (hg i)
      _ = 2 * B := by ring
  · rw [if_neg h]
    simp only [abs_zero]
    linarith

/-- C9 (amended): increasing the iteration count cannot push the output's total
variation arbitrarily far above the input's: for every input, `lambda > 0`,
floor `ε > 0` and every iteration count `n`, the total variation of the denoised
output exceeds the input's total variation by at most
`4·lambda·(number of active dimensions)²·(number of grid points)` — but it can
exceed it (see the counterexample), so "never exceeds" is false as stated. -/
theorem C9_tv_amended {N : ℕ} (sz : Fin N → ℕ) (m : Fin N → Bool)
    (lambda ε : ℝ) (n : ℕ) (input : Arr N) (hlam : 0 < lambda) (hε : 0 < ε) :
    totalVariation sz m (totalVariationDenoisingBPDQ sz m lambda ε n input)
      ≤ totalVariation sz m input
        + 4 * lambda * (numberOfDimensionsProcessed m : ℝ) ^ 2 * (Box sz).card := by
  have hD0 : (0 : ℝ) ≤ (numberOfDimensionsProcessed m : ℝ) := Nat.cast_nonneg _
  have hdualb : ∀ d i,
      |bpdqDual sz m input (bpdqBeta m) (bpdqGamma lambda) ε n d i| ≤ lambda :=
    fun d i => bpdqDual_abs_le sz m input (bpdqBeta m) (bpdqGamma lambda) ε
      hlam.le hε n d i
  have hdivb : ∀ j,
      |backwardDifferenceDivergence m
          (bpdqDual sz m input (bpdqBeta m) (bpdqGamma lambda) ε n) j|
        ≤ 2 * lambda * (numberOfDimensionsProcessed m : ℝ) :=
    fun j => divergence_abs_le m _ lambda hlam.le hdualb j
  have hpt : ∀ i ∈ Box sz,
      ∑ d : Fin N,
        |forwardDifferenceGradient sz m
          (totalVariationDenoisingBPDQ sz m lambda ε n input) d i|
        ≤ (∑ d : Fin N, |forwardDifferenceGradient sz m input d i|)
          + 4 * lambda * (numberOfDimensionsProcessed m : ℝ)
              * (numberOfDimensionsProcessed m : ℝ) := by
    intro i _
    have h1 : ∀ d : Fin N,
        |forwardDifferenceGradient sz m
          (totalVariationDenoisingBPDQ sz m lambda ε n input) d i|
          ≤ |forwardDifferenceGradient sz m input d i|
            + (if m d = true then
                4 * lambda * (numberOfDimensionsProcessed m : ℝ)
              else 0) := by
      intro d
      have hsplit : forwardDifferenceGradient sz m
          (totalVariationDenoisingBPDQ sz m lambda ε n input) d i
          = forwardDifferenceGradient sz m input d i
            - forwardDifferenceGradient sz m
                (fun j => backwardDifferenceDivergence m
                  (bpdqDual sz m input (bpdqBeta m) (bpdqGamma lambda) ε n) j)
                d i :=
        forwardDifferenceGradient_sub sz m input _ d i
      have h2 : |forwardDifferenceGradient sz m
          (fun j => backwardDifferenceDivergence m
            (bpdqDual sz m input (bpdqBeta m) (bpdqGamma lambda) ε n) j) d i|
          ≤ if m d = true then
              4 * lambda * (numberOfDimensionsProcessed m : ℝ)
            else 0 := by
        by_cases hd : m d = true
        · rw [if_pos hd]
          have h3 := forwardDifferenceGradient_abs_le sz m
            (fun j => backwardDifferenceDivergence m
              (bpdqDual sz m input (bpdqBeta m) (bpdqGamma lambda) ε n) j)
            (2 * lambda * (numberOfDimensionsProcessed m : ℝ))
            (by positivity) hdivb d i
          calc |forwardDifferenceGradient sz m
                (fun j => backwardDifferenceDivergence m
                  (bpdqDual sz m input (bpdqBeta m) (bpdqGamma lambda) ε n) j)
                d i|
              ≤ 2 * (2 * lambda * (numberOfDimensionsProcessed m : ℝ)) := h3
            _ = 4 * lambda * (numberOfDimensionsProcessed m : ℝ) := by ring
        · rw [if_neg hd]
          have hz : forwardDifferenceGradient sz m
              (fun j => backwardDifferenceDivergence m
                (bpdqDual sz m input (bpdqBeta m) (bpdqGamma lambda) ε n) j) d i
              = 0 := by
            unfold forwardDifferenceGradient
            rw [if_neg]
            tauto
          rw [hz]
          simp
      rw [hsplit]
      calc |forwardDifferenceGradient sz m input d i
            - forwardDifferenceGradient sz m
                (fun j => backwardDifferenceDivergence m
                  (bpdqDual sz m input (bpdqBeta m) (bpdqGamma lambda) ε n) j)
                d i|
          ≤ |forwardDifferenceGradient sz m input d i|
            + |forwardDifferenceGradient sz m
                (fun j => backwardDifferenceDivergence m
                  (bpdqDual sz m input (bpdqBeta m) (bpdqGamma lambda) ε n) j)
                d i| := abs_sub _ _
        _ ≤ |forwardDifferenceGradient sz m input d i|
            + (if m d = true then
                4 * lambda * (numberOfDimensionsProcessed m : ℝ)
              else 0) := add_le_add_left h2 _
    calc ∑ d : Fin N,
          |forwardDifferenceGradient sz m
            (totalVariationDenoisingBPDQ sz m lambda ε n input) d i|
        ≤ ∑ d : Fin N,
            (|forwardDifferenceGradient sz m input d i|
              + (if m d = true then
                  4 * lambda * (numberOfDimensionsProcessed m : ℝ)
                else 0)) := Finset.sum_le_sum fun d _ => h1 d
      _ = (∑ d : Fin N, |forwardDifferenceGradient sz m input d i|)
            + 4 * lambda * (numberOfDimensionsProcessed m : ℝ)
                * (numberOfDimensionsProcessed m : ℝ) := by
          rw [Finset.sum_add_distrib, ← Finset.sum_filter, Finset.sum_const,
            nsmul_eq_mul]
          unfold numberOfDimensionsProcessed
          ring
  calc totalVariation sz m (totalVariationDenoisingBPDQ sz m lambda ε n input)
      = ∑ i ∈ Box sz, ∑ d : Fin N,
          |forwardDifferenceGradient sz m
            (totalVariationDenoisingBPDQ sz m lambda ε n input) d i| := rfl
    _ ≤ ∑ i ∈ Box sz,
          ((∑ d : Fin N, |forwardDifferenceGradient sz m input d i|)
            + 4 * lambda * (numberOfDimensionsProcessed m : ℝ)
                * (numberOfDimensionsProcessed m : ℝ)) := Finset.sum_le_sum hpt
    _ = totalVariation sz m input
          + 4 * lambda * (numberOfDimensionsProcessed m : ℝ) ^ 2
              * (Box sz).card := by
        rw [Finset.sum_add_distrib, Finset.sum_const, nsmul_eq_mul]
        unfold totalVariation
        ring

/-- The pre-projection candidate field of the first iteration of the reference
run on the 1-D array `[0, 1, 0]` with `lambda = 1` and floor `1/1000`. -/
def cexCand : GradField 1 :=
  fun d i =>
    bpdqDual (fun _ => 3) (fun _ => true) (arr3 0 1 0) (bpdqBeta fun _ : Fin 1 => true)
        (bpdqGamma 1) (1 / 1000) 0 d i
      + bpdqBeta (fun _ : Fin 1 => true)
        * forwardDifferenceGradient (fun _ => 3) (fun _ => true)
            (fun j => arr3 0 1 0 j
              - backwardDifferenceDivergence (fun _ => true)
                  (bpdqDual (fun _ => 3) (fun _ => true) (arr3 0 1 0)
                    (bpdqBeta fun _ : Fin 1 => true) (bpdqGamma 1) (1 / 1000) 0) j)
            d i

/-- The dual field after one iteration of the reference run. -/
def cexDual1 : GradField 1 :=
  bpdqDual (fun _ => 3) (fun _ => true) (arr3 0 1 0) (bpdqBeta fun _ : Fin 1 => true)
    (bpdqGamma 1) (1 / 1000) 1

theorem cexBeta : bpdqBeta (fun _ : Fin 1 => true) = 1 / 4 := by
  unfold bpdqBeta
  rw [show numberOfDimensionsProcessed (fun _ : Fin 1 => true) = 1 by decide]
  norm_num

theorem cexCand_eval (k : ℕ) :
    cexCand 0 (fun _ => k)
      = if k = 0 then 1 / 4 else if k = 1 then -(1 / 4) else 0 := by
  have hdiv0 : ∀ j : Index 1,
      backwardDifferenceDivergence (fun _ : Fin 1 => true)
        (bpdqDual (fun _ => 3) (fun _ => true) (arr3 0 1 0)
          (bpdqBeta fun _ : Fin 1 => true) (bpdqGamma 1) (1 / 1000) 0) j = 0 := by
    intro j
    show backwardDifferenceDivergence (fun _ : Fin 1 => true)
      (fun _ _ => (0 : ℝ)) j = 0
    unfold backwardDifferenceDivergence
    simp
  unfold cexCand
  have h00 : bpdqDual (fun _ => 3) (fun _ => true) (arr3 0 1 0)
      (bpdqBeta fun _ : Fin 1 => true) (bpdqGamma 1) (1 / 1000) 0 0 (fun _ => k)
      = 0 := rfl
  rw [h00, grad1]
  rcases k with _ | _ | _ | k
  · simp only [hdiv0]
    norm_num [arr3, cexBeta]
  · simp only [hdiv0]
    norm_num [arr3, cexBeta]
  · norm_num
  · rw [if_neg (by omega : ¬(k + 3 + 1 < 3)),
      if_neg (by omega : ¬(k + 3 = 0)), if_neg (by omega : ¬(k + 3 = 1))]
    ring

theorem cexDual1_eval (k : ℕ) :
    cexDual1 0 (fun _ => k)
      = if k = 0 then 1 / 4 else if k = 1 then -(1 / 4) else 0 := by
  have happ : cexDual1 0 (fun _ => k)
      = min 1 (bpdqGamma 1 / max (fieldMagnitude cexCand (fun _ => k)) (1 / 1000))
          * cexCand 0 (fun _ => k) := rfl
  rw [happ, mag1 cexCand (fun _ => k), cexCand_eval k]
  rcases k with _ | _ | _ | k
  · rw [show (if (0 : ℕ) = 0 then (1 : ℝ) / 4 else if (0 : ℕ) = 1 then -(1 / 4)
        else 0) = 1 / 4 by norm_num]
    rw [show |(1 : ℝ) / 4| = 1 / 4 by norm_num]
    rw [show max ((1 : ℝ) / 4) (1 / 1000) = 1 / 4 from max_eq_left (by norm_num)]
    rw [show bpdqGamma 1 = (1 : ℝ) from rfl]
    rw [show min (1 : ℝ) (1 / (1 / 4)) = 1 from min_eq_left (by norm_num)]
    norm_num
  · rw [show (if (1 : ℕ) = 0 then (1 : ℝ) / 4 else if (1 : ℕ) = 1 then -(1 / 4)
        else 0) = -(1 / 4) by norm_num]
    rw [show |-((1 : ℝ) / 4)| = 1 / 4 by norm_num]
    rw [show max ((1 : ℝ) / 4) (1 / 1000) = 1 / 4 from max_eq_left (by norm_num)]
    rw [show bpdqGamma 1 = (1 : ℝ) from rfl]
    rw [show min (1 : ℝ) (1 / (1 / 4)) = 1 from min_eq_left (by norm_num)]
    norm_num
  · norm_num
  · rw [if_neg (by omega : ¬(k + 3 = 0)), if_neg (by omega : ¬(k + 3 = 1))]
    rw [mul_zero]

theorem cexDiv1_eval (k : ℕ) :
    backwardDifferenceDivergence (fun _ : Fin 1 => true) cexDual1 (fun _ => k)
      = if k = 0 then 1 / 4 else if k = 1 then -(1 / 2)
        else if k = 2 then 1 / 4 else 0 := by
  rw [div1]
  rcases k with _ | _ | _ | k
  · rw [cexDual1_eval 0]
    norm_num
  · rw [cexDual1_eval 1, if_pos (by norm_num : 0 < 1)]
    rw [show (1 : ℕ) - 1 = 0 from rfl, cexDual1_eval 0]
    norm_num
  · rw [cexDual1_eval 2, if_pos (by norm_num : 0 < 2)]
    rw [show (2 : ℕ) - 1 = 1 from rfl, cexDual1_eval 1]
    norm_num
  · have e1 : cexDual1 0 (fun _ => k + 3) = 0 := by
      rw [cexDual1_eval]
      rw [if_neg (by omega : ¬(k + 3 = 0)), if_neg (by omega : ¬(k + 3 = 1))]
    have e2 : cexDual1 0 (fun _ => k + 3 - 1) = 0 := by
      rw [cexDual1_eval]
      rw [if_neg (by omega : ¬(k + 3 - 1 = 0)),
        if_neg (by omega : ¬(k + 3 - 1 = 1))]
    rw [e1, e2]
    rw [if_neg (by omega : ¬(k + 3 = 0)), if_neg (by omega : ¬(k + 3 = 1)),
      if_neg (by omega : ¬(k + 3 = 2))]
    simp

theorem cexOut_eval (k : ℕ) :
    totalVariationDenoisingBPDQ (fun _ => 3) (fun _ => true) 1 (1 / 1000) 1
        (arr3 0 1 0) (fun _ => k)
      = if k = 0 then -(1 / 4) else if k = 1 then 3 / 2
        else if k = 2 then -(1 / 4) else 0 := by
  have hunfold : totalVariationDenoisingBPDQ (fun _ => 3) (fun _ => true) 1
      (1 / 1000) 1 (arr3 0 1 0) (fun _ => k)
      = arr3 0 1 0 (fun _ => k)
        - backwardDifferenceDivergence (fun _ => true) cexDual1 (fun _ => k) :=
    rfl
  rw [hunfold, cexDiv1_eval k]
  rcases k with _ | _ | _ | k
  · norm_num [arr3]
  · norm_num [arr3]
  · norm_num [arr3]
  · have harr : arr3 0 1 0 (fun _ => k + 1 + 1 + 1) = 0 := by
      unfold arr3
      rw [if_neg (by omega : ¬(k + 1 + 1 + 1 = 0)),
        if_neg (by omega : ¬(k + 1 + 1 + 1 = 1))]
    rw [harr]
    split_ifs <;> first | (exfalso; omega) | ring

/-- C9 counterexample: on the 1-D input `[0, 1, 0]` with `lambda = 1`, floor
`1/1000` and a single iteration, the output is `[-1/4, 3/2, -1/4]`: its total
variation `7/2` strictly exceeds the input's total variation `2`, refuting "the
total variation of the denoised output never exceeds the total variation of the
unfiltered input". -/
theorem C9_tv_counterexample :
    totalVariation (fun _ : Fin 1 => 3) (fun _ => true) (arr3 0 1 0) = 2
    ∧ totalVariation (fun _ : Fin 1 => 3) (fun _ => true)
        (totalVariationDenoisingBPDQ (fun _ => 3) (fun _ => true) 1 (1 / 1000) 1
          (arr3 0 1 0)) = 7 / 2
    ∧ ¬ (totalVariation (fun _ : Fin 1 => 3) (fun _ => true)
          (totalVariationDenoisingBPDQ (fun _ => 3) (fun _ => true) 1 (1 / 1000) 1
            (arr3 0 1 0))
        ≤ totalVariation (fun _ : Fin 1 => 3) (fun _ => true) (arr3 0 1 0)) := by
  have hin : totalVariation (fun _ : Fin 1 => 3) (fun _ => true) (arr3 0 1 0)
      = 2 := by
    unfold totalVariation
    rw [Box1_sum]
    rw [Finset.sum_range_succ, Finset.sum_range_succ, Finset.sum_range_one]
    simp only [Fin.sum_univ_one]
    rw [grad1, grad1, grad1]
    norm_num [arr3]
  have hout : totalVariation (fun _ : Fin 1 => 3) (fun _ => true)
      (totalVariationDenoisingBPDQ (fun _ => 3) (fun _ => true) 1 (1 / 1000) 1
        (arr3 0 1 0)) = 7 / 2 := by
    unfold totalVariation
    rw [Box1_sum]
    rw [Finset.sum_range_succ, Finset.sum_range_succ, Finset.sum_range_one]
    simp only [Fin.sum_univ_one]
    rw [grad1, grad1, grad1]
    simp only [cexOut_eval]
    norm_num
    rw [abs_of_pos (show (0 : ℝ) < 7 / 4 by norm_num)]
    norm_num
  refine ⟨hin, hout, ?_⟩
  rw [hin, hout]
  norm_num

/-- Witness for the amended C9 at a concrete configuration. -/
theorem C9_tv_amended_witness :
    totalVariation (fun _ : Fin 1 => 3) (fun _ => true)
        (totalVariationDenoisingBPDQ (fun _ => 3) (fun _ => true) 1 (1 / 1000) 1
          (arr3 0 1 0))
      ≤ totalVariation (fun _ : Fin 1 => 3) (fun _ => true) (arr3 0 1 0)
        + 4 * 1 * (numberOfDimensionsProcessed (fun _ : Fin 1 => true) : ℝ) ^ 2
            * (Box (fun _ : Fin 1 => 3)).card :=
  C9_tv_amended (fun _ => 3) (fun _ => true) 1 (1 / 1000) 1 (arr3 0 1 0)
    (by norm_num) (by norm_num)

/-- C10: the header's `itkSetMacro`/`itkGetMacro` setters and getters perform no
validation: for every state, every int `v` (negative included) and every double
`d` (non-positive included), the setters are total functions (no error condition
exists), the matching getter returns exactly the stored argument, and the other
member is untouched. -/
theorem C10_setters_no_validation :
    ∀ (s : TVDenoisingFilterState) (v : ℤ) (d : ℝ),
      GetNumberOfIterations (SetNumberOfIterations s v) = v
      ∧ GetLambda (SetLambda s d) = d
      ∧ GetLambda (SetNumberOfIterations s v) = GetLambda s
      ∧ GetNumberOfIterations (SetLambda s d) = GetNumberOfIterations s := by
  intro s v d
  exact ⟨rfl, rfl, rfl, rfl⟩

end
